import Mathlib

/-!
Shallow embedding of `gomock/call.go` (package gomock): the expectation-matching
core of a mock library.  A `Call` records one expected method invocation with
argument matchers, return values, call-count bounds, prerequisites and actions.
Go machine integers (`int`) are modelled as `Int`; no claim involves overflow.
The mutable receiver of Go pointer methods is threaded explicitly: a method that
can mutate `c` returns the updated `Call`.  The test reporter's `Fatalf`, which
halts the test, is modelled by an error outcome (`Except` / an `Option FatalErr`
paired with the unchanged state).
-/

namespace Gomock

/-- Go reflection kinds, restricted to what `call.go` inspects. -/
inductive GoKind where
  | bool | int | str | chan | func | iface | map | ptr | slice | strct
  deriving DecidableEq, Repr

/-- Method parameter/return types as a static descriptor standing in for
`reflect.Type`: a named base type, or a pointer type with its referent. -/
inductive GoType where
  | base (k : GoKind) (name : String)
  | ptr (elem : GoType)
  deriving DecidableEq, Repr

/-- Kind of a type, as `reflect.Type.Kind()`. -/
def GoType.kind : GoType → GoKind
  | .base k _ => k
  | .ptr _ => .ptr

/-- Payload carried by a runtime value. Pointer payloads are heap addresses. -/
inductive Payload where
  | int (i : Int)
  | bool (b : Bool)
  | str (s : String)
  | addr (a : Nat)
  | nilp
  | raw (n : Nat)
  deriving DecidableEq, Repr

/-- A Go `interface{}` value: either the universal untyped nil marker, or a
value of some dynamic type. -/
inductive Value where
  | nil
  | typed (t : GoType) (p : Payload)
  deriving DecidableEq, Repr

/-- Runtime type of a value, as `reflect.TypeOf`: `none` for the nil marker. -/
def Value.typeOf : Value → Option GoType
  | .nil => none
  | .typed t _ => some t

/-- Kinds whose values may legitimately be nil (the `switch want.Kind()` list in
`Call.Return`). -/
def nillableKind : GoKind → Bool
  | .chan | .func | .iface | .map | .ptr | .slice => true
  | _ => false

/-- Zero payload of a kind, as `reflect.Zero`. -/
def zeroPayload : GoKind → Payload
  | .int => .int 0
  | .bool => .bool false
  | .str => .str ""
  | .strct => .raw 0
  | _ => .nilp

/-- Zero value of a type, as `reflect.Zero(t).Interface()`. -/
def zeroValue (t : GoType) : Value :=
  .typed t (zeroPayload t.kind)

/-- Go assignability (`reflect.Type.AssignableTo`) is an external library
relation; it is modelled by its two cases that arise for mock return values:
identical types, and assignment of any value into an interface type. -/
def assignableTo (vt want : GoType) : Bool :=
  vt = want || want.kind = .iface

/-- Normalization performed by `Return` in the assignable case:
`v := reflect.New(want).Elem(); v.Set(value); rets[i] = v.Interface()`
stores the value at the declared slot type. -/
def convertTo (want : GoType) : Value → Value
  | .nil => .nil
  | .typed _ p => .typed want p

/-- Static signature descriptor standing in for the method's `reflect.Type`:
`ins` are the parameter types (`NumIn`/`In`), `outs` the return types
(`NumOut`/`Out`). -/
structure MethodType where
  ins : List GoType
  outs : List GoType
  deriving DecidableEq, Repr

/-- An argument matcher: external predicate object (`gomock.Matcher`). -/
structure Matcher where
  accepts : Value → Bool

/-- A stored action function (`reflect.Value` of `doFunc`): its parameter types
(`doFunc.Type().In(i)`) and an identity distinguishing functions. -/
structure DoFunc where
  ins : List GoType
  fid : Nat
  deriving DecidableEq, Repr

/-- The deferred action unit returned by `call`: the stored function together
with the substituted argument list captured by the closure. -/
structure Deferred where
  fn : DoFunc
  callArgs : List Value
  deriving DecidableEq, Repr

/-- Fatal test-reporter outcomes (`c.t.Fatalf`), one per call site in the
source. Each carries the data interpolated into the message. -/
inductive FatalErr where
  | wrongReturnArity (got want : Nat)
  | returnNotNillable (i : Nat)
  | returnNotAssignable (i : Nat)
  | setArgRange (n nargs : Nat)
  | setArgNotAssignable (n : Nat)
  | setArgBadKind (n : Nat)
  | selfPrereq
  | prereqLoop
  deriving DecidableEq, Repr

/-- Non-fatal mismatch errors returned by `matches`, one per `fmt.Errorf` in
the source, carrying the interpolated data. -/
inductive MatchError where
  | wrongArity (set takes : Nat)
  | argMismatch (i : Nat)
  | unsatisfiedPrereq (preReq : Nat)
  deriving DecidableEq, Repr

/-- The heap: pointer payloads address into it.  Writing through a pointer
argument mutates the addressed cell. -/
def Store := List Value

/-- One expected call (`type Call struct` in the source).  Prerequisite calls,
held as `*Call` pointers in Go, are held as indices into the registry list
(`Sys`); pointer equality becomes index equality. -/
structure Call where
  receiver : Nat
  method : String
  methodType : MethodType
  args : List Matcher
  rets : Option (List Value)
  origin : String
  preReqs : List Nat
  minCalls : Int
  maxCalls : Int
  numCalls : Int
  doFunc : Option DoFunc
  setArgs : List (Nat × Value)

/-- The registry of live `Call` objects; Go pointers become indices into it. -/
def Sys := List Call

/-- Dereference a call index.  Out-of-range indices denote no live object and
yield an inert call with no edges. -/
def getCall (s : Sys) (i : Nat) : Call :=
  (List.get? s i).getD
    { receiver := 0, method := "", methodType := ⟨[], []⟩, args := []
      rets := none, origin := "", preReqs := [], minCalls := 1, maxCalls := 1
      numCalls := 0, doFunc := none, setArgs := [] }

/-- AnyTimes allows the expectation to be called 0 or more times:
`c.minCalls, c.maxCalls = 0, 1e8`. -/
def Call.AnyTimes (c : Call) : Call :=
  { c with minCalls := 0, maxCalls := 100000000 }

/-- MinTimes sets `minCalls = n`; if `maxCalls` is 1 it raises it to `1e8`. -/
def Call.MinTimes (c : Call) (n : Int) : Call :=
  let c := { c with minCalls := n }
  if c.maxCalls = 1 then { c with maxCalls := 100000000 } else c

/-- MaxTimes sets `maxCalls = n`; if `minCalls` is 1 it lowers it to 0. -/
def Call.MaxTimes (c : Call) (n : Int) : Call :=
  let c := { c with maxCalls := n }
  if c.minCalls = 1 then { c with minCalls := 0 } else c

/-- Times pins both bounds: `c.minCalls, c.maxCalls = n, n`. -/
def Call.Times (c : Call) (n : Int) : Call :=
  { c with minCalls := n, maxCalls := n }

/-- Do stores the action function: `c.doFunc = reflect.ValueOf(f)`. -/
def Call.Do (c : Call) (f : DoFunc) : Call :=
  { c with doFunc := some f }

/-- Element loop of `Return`: for each declared out type and supplied value,
identical type is kept as-is, the nil marker is accepted for nillable kinds,
an assignable value is normalized to the slot type, anything else is fatal. -/
def returnLoop : List GoType → List Value → Nat → Except FatalErr (List Value)
  | w :: ws, r :: rest, i =>
    match r.typeOf with
    | some got =>
      if got = w then
        (returnLoop ws rest (i + 1)).map (fun tl => r :: tl)
      else if assignableTo got w then
        (returnLoop ws rest (i + 1)).map (fun tl => convertTo w r :: tl)
      else
        .error (.returnNotAssignable i)
    | none =>
      if nillableKind w.kind then
        (returnLoop ws rest (i + 1)).map (fun tl => r :: tl)
      else
        .error (.returnNotNillable i)
  | _, _, _ => .ok []

/-- Return declares the values to return: arity must equal `NumOut` (fatal
otherwise), each value is vetted by the element loop, and the vetted list is
stored in `c.rets`. -/
def Call.Return (c : Call) (rs : List Value) : Except FatalErr Call :=
  if rs.length ≠ c.methodType.outs.length then
    .error (.wrongReturnArity rs.length c.methodType.outs.length)
  else
    match returnLoop c.methodType.outs rs 0 with
    | .error e => .error e
    | .ok rs' => .ok { c with rets := some rs' }

/-- Insert a binding into the `setArgs` map, replacing an existing key. -/
def insertBinding : List (Nat × Value) → Nat → Value → List (Nat × Value)
  | [], n, v => [(n, v)]
  | (m, w) :: t, n, v =>
    if m = n then (n, v) :: t else (m, w) :: insertBinding t n v

/-- SetArg declares that the nth argument's referent is set to `value` at call
time.  The index must be in range; a pointer parameter's referent type must
admit the value; an interface parameter is accepted unchecked; any other
parameter kind is fatal. -/
def Call.SetArg (c : Call) (n : Nat) (value : Value) : Except FatalErr Call :=
  if n ≥ c.methodType.ins.length then
    .error (.setArgRange n c.methodType.ins.length)
  else
    let at_ := (c.methodType.ins.get? n).getD (.base .iface "")
    match at_ with
    | .ptr dt =>
      match value.typeOf with
      | some vt =>
        if assignableTo vt dt then
          .ok { c with setArgs := insertBinding c.setArgs n value }
        else
          .error (.setArgNotAssignable n)
      | none => .error (.setArgNotAssignable n)
    | .base k _ =>
      if k = .iface then
        .ok { c with setArgs := insertBinding c.setArgs n value }
      else
        .error (.setArgBadKind n)

/-- Whether the minimum number of calls has been made:
`c.numCalls >= c.minCalls`. -/
def Call.satisfied (c : Call) : Bool :=
  c.numCalls ≥ c.minCalls

/-- Whether the maximum number of calls has been made:
`c.numCalls >= c.maxCalls`. -/
def Call.exhausted (c : Call) : Bool :=
  c.numCalls ≥ c.maxCalls

/-- The direct prerequisite relation: call `x` lists call `y` among its
`preReqs`. -/
def EdgeTo (s : Sys) (x y : Nat) : Prop :=
  y ∈ (getCall s x).preReqs

/-- Recursive walk of `isPreReq`: `other` is a direct or indirect prerequisite
of `c`.  The Go recursion terminates only on acyclic graphs; fuel makes it
total, and `s.length` fuel is shown sufficient on acyclic registries. -/
def isPreReqFuel (s : Sys) : Nat → Nat → Nat → Bool
  | 0, _, _ => false
  | fuel + 1, c, other =>
    (getCall s c).preReqs.any (fun p => other = p || isPreReqFuel s fuel p other)

/-- isPreReq returns true if `other` is a direct or indirect prerequisite
of call index `c`. -/
def isPreReq (s : Sys) (c other : Nat) : Bool :=
  isPreReqFuel s s.length c other

/-- After declares that call `c` may only match after `preReq`.  Fatal (state
unchanged) when `preReq` is `c` itself or when `c` is already a prerequisite of
`preReq`; otherwise `preReq` is appended to `c.preReqs`. -/
def After (s : Sys) (c preReq : Nat) : Sys × Option FatalErr :=
  if c = preReq then
    (s, some .selfPrereq)
  else if isPreReq s preReq c then
    (s, some .prereqLoop)
  else
    (List.set s c { getCall s c with preReqs := (getCall s c).preReqs ++ [preReq] }, none)

/-- Argument loop of `matches`: test each stored Matcher against the actual
value at its position; report the first failing index.  The receiver is
threaded through unchanged, as the loop body never assigns to it. -/
def matchesArgsLoop (c : Call) : List Matcher → List Value → Nat → Call × Option MatchError
  | m :: ms, v :: vs, i =>
    if ¬ m.accepts v then (c, some (.argMismatch i))
    else matchesArgsLoop c ms vs (i + 1)
  | _, _, _ => (c, none)

/-- Prerequisite loop of `matches`: report the first prerequisite whose
`satisfied()` is false. -/
def matchesPreReqLoop (s : Sys) (c : Call) : List Nat → Call × Option MatchError
  | [] => (c, none)
  | p :: ps =>
    if ¬ (getCall s p).satisfied then (c, some (.unsatisfiedPrereq p))
    else matchesPreReqLoop s c ps

/-- Tests whether the given actual arguments match the expected call: arity
check, then positional Matcher checks, then prerequisite satisfaction, failing
fast in that order; `none` on success. -/
def Call.matches (s : Sys) (c : Call) (args : List Value) : Call × Option MatchError :=
  if args.length ≠ c.args.length then
    (c, some (.wrongArity args.length c.args.length))
  else
    match matchesArgsLoop c c.args args 0 with
    | (c, some e) => (c, some e)
    | (c, none) => matchesPreReqLoop s c c.preReqs

/-- dropPrereqs clears the prerequisite edges and returns the prior set. -/
def Call.dropPrereqs (c : Call) : Call × List Nat :=
  ({ c with preReqs := [] }, c.preReqs)

/-- Argument substitution performed when packaging the action: an actual
argument that is the nil marker is replaced by the zero value of the action's
declared parameter type at that index. -/
def substArgs (ins : List GoType) (args : List Value) : List Value :=
  args.mapIdx (fun i a =>
    match a with
    | .nil => zeroValue ((List.get? ins i).getD (.base .iface ""))
    | v => v)

/-- Write a bound value through an actual pointer argument:
`reflect.ValueOf(args[n]).Elem().Set(v)` updates the addressed heap cell. -/
def writeThrough (st : Store) (arg : Value) (v : Value) : Store :=
  match arg with
  | .typed _ (.addr a) => List.set st a v
  | _ => st

/-- Executes the expected call: increments `numCalls`, packages the action (if
any) as a deferred unit over the substituted arguments, applies every stored
output binding to the heap immediately, and produces the declared return values
or, absent a `Return`, the zero value of each declared return slot. -/
def Call.call (c : Call) (args : List Value) (st : Store) :
    Call × List Value × Option Deferred × Store :=
  let c' := { c with numCalls := c.numCalls + 1 }
  let action : Option Deferred :=
    match c.doFunc with
    | some f => some ⟨f, substArgs f.ins args⟩
    | none => none
  let st' : Store :=
    c.setArgs.foldl (fun st p => writeThrough st ((List.get? args p.1).getD .nil) p.2) st
  let rets : List Value :=
    match c.rets with
    | some rs => rs
    | none => c.methodType.outs.map zeroValue
  (c', rets, action, st')

/-- InOrder wires each call after its predecessor:
`calls[i].After(calls[i-1])`.  It stops at the first fatal outcome. -/
def InOrder (s : Sys) : List Nat → Sys × Option FatalErr
  | [] => (s, none)
  | [_] => (s, none)
  | a :: b :: t =>
    match After s b a with
    | (s', none) => InOrder s' (b :: t)
    | (s', some e) => (s', some e)

/-- Modelled from the spec: expectation construction (the controller's
recording of a call, which is not among the sources) initializes the bounds to
their default `[1, 1]` with `numCalls = 0` and no matchers, returns, edges or
actions; concrete expectations used below are built from this by record
update. -/
def freshCall : Call :=
  { receiver := 0, method := "m", methodType := ⟨[], []⟩, args := []
    rets := none, origin := "here", preReqs := [], minCalls := 1, maxCalls := 1
    numCalls := 0, doFunc := none, setArgs := [] }

/-- One bound-setting operation. -/
inductive BoundOp where
  | anyTimes
  | minTimes (n : Int)
  | maxTimes (n : Int)
  | times (n : Int)
  deriving DecidableEq, Repr

/-- Apply one bound-setting operation. -/
def applyBoundOp (c : Call) : BoundOp → Call
  | .anyTimes => c.AnyTimes
  | .minTimes n => c.MinTimes n
  | .maxTimes n => c.MaxTimes n
  | .times n => c.Times n

/-- Apply a sequence of bound-setting operations, left to right. -/
def applyBoundOps (c : Call) (ops : List BoundOp) : Call :=
  ops.foldl applyBoundOp c

/-- An operation's argument is non-negative (`anyTimes` takes none). -/
def BoundOp.argNonNeg : BoundOp → Prop
  | .anyTimes => True
  | .minTimes n => 0 ≤ n
  | .maxTimes n => 0 ≤ n
  | .times n => 0 ≤ n

/-- The argument of `minTimes` does not exceed the `1e8` unbounded sentinel
(no constraint on the other operations). -/
def BoundOp.argLeSentinel : BoundOp → Prop
  | .minTimes n => n ≤ 100000000
  | _ => True

/-- Run a sequence of invocations: each step executes `call` with that step's
actual arguments and heap, keeping the updated expectation state. -/
def runCalls (c : Call) (steps : List (List Value × Store)) : Call :=
  steps.foldl (fun c p => (Call.call c p.1 p.2).1) c

/-- Reachability along prerequisite edges in one or more steps: the "direct or
transitive" dependency relation that `isPreReq` searches. -/
def Reaches (s : Sys) : Nat → Nat → Prop :=
  Relation.TransGen (EdgeTo s)

/-- Acyclicity of the prerequisite graph: no call depends on itself. -/
def Acyclic (s : Sys) : Prop :=
  ∀ a, ¬ Reaches s a a

/-- Heap address targeted by the actual argument at position `n`, if that
argument is a pointer value. -/
def argAddr (args : List Value) (n : Nat) : Option Nat :=
  match (List.get? args n).getD .nil with
  | .typed _ (.addr a) => some a
  | _ => none

/-- Matcher accepting anything (like `gomock.Any()`); used for concrete
expectations. -/
def anyMatcher : Matcher :=
  ⟨fun _ => true⟩

/-- Matcher accepting exactly one value (like `gomock.Eq`); used for concrete
expectations. -/
def eqMatcher (v : Value) : Matcher :=
  ⟨fun w => w = v⟩

/-! Helper lemmas shared by the claim theorems. -/

theorem call_fst (c : Call) (args : List Value) (st : Store) :
    (Call.call c args st).1 = { c with numCalls := c.numCalls + 1 } := rfl

theorem runCalls_state (c : Call) (steps : List (List Value × Store)) :
    (runCalls c steps).minCalls = c.minCalls ∧
    (runCalls c steps).maxCalls = c.maxCalls ∧
    (runCalls c steps).numCalls = c.numCalls + (steps.length : Int) := by
  induction steps generalizing c with
  | nil => simp [runCalls]
  | cons p t ih =>
    have h := ih ((Call.call c p.1 p.2).1)
    rw [call_fst] at h
    simp only [runCalls, List.foldl_cons] at *
    obtain ⟨h1, h2, h3⟩ := h
    rw [call_fst]
    refine ⟨h1, h2, ?_⟩
    rw [h3]
    simp only [List.length_cons]
    push_cast
    omega

theorem applyBoundOp_nonneg (c : Call) (op : BoundOp)
    (hmin : 0 ≤ c.minCalls) (hmax : 0 ≤ c.maxCalls) (harg : op.argNonNeg) :
    0 ≤ (applyBoundOp c op).minCalls ∧ 0 ≤ (applyBoundOp c op).maxCalls := by
  cases op <;>
    simp only [applyBoundOp, Call.AnyTimes, Call.MinTimes, Call.MaxTimes,
      Call.Times, BoundOp.argNonNeg] at * <;>
    first
      | omega
      | (split <;> simp only [] <;> omega)

/-- C1 counterexample: starting from the default bounds `[1, 1]`, the
non-negative sequence `MaxTimes 0` then `MinTimes 5` ends with bounds `[5, 0]`,
violating `minCalls ≤ maxCalls`: `MinTimes` only raises `maxCalls` when it
still equals 1. -/
theorem C1_counterexample :
    ¬ ((applyBoundOps freshCall [.maxTimes 0, .minTimes 5]).minCalls ≤
       (applyBoundOps freshCall [.maxTimes 0, .minTimes 5]).maxCalls) := by
  decide

/-- C1 (amended): under bound-setting sequences with non-negative arguments
both bounds stay non-negative, and `minCalls ≤ maxCalls` does hold after any
single operation applied to the default bounds `[1, 1]` (for `MinTimes`,
provided its argument does not exceed the `1e8` unbounded sentinel); full
`minCalls ≤ maxCalls` preservation under sequences fails, see the
counterexample. -/
theorem C1_bounds_after_ops :
    (∀ (c : Call) (ops : List BoundOp), 0 ≤ c.minCalls → 0 ≤ c.maxCalls →
      (∀ op ∈ ops, op.argNonNeg) →
      0 ≤ (applyBoundOps c ops).minCalls ∧ 0 ≤ (applyBoundOps c ops).maxCalls) ∧
    (∀ (c : Call) (op : BoundOp), c.minCalls = 1 → c.maxCalls = 1 →
      op.argNonNeg → op.argLeSentinel →
      0 ≤ (applyBoundOp c op).minCalls ∧
        (applyBoundOp c op).minCalls ≤ (applyBoundOp c op).maxCalls) := by
  constructor
  · intro c ops
    induction ops generalizing c with
    | nil => intro h1 h2 _; exact ⟨h1, h2⟩
    | cons op t ih =>
      intro h1 h2 hops
      have hop := applyBoundOp_nonneg c op h1 h2 (hops op (List.mem_cons_self op t))
      simpa [applyBoundOps] using
        ih (applyBoundOp c op) hop.1 hop.2 (fun o ho => hops o (List.mem_cons_of_mem _ ho))
  · intro c op hmin hmax harg hsent
    cases op <;>
      simp only [applyBoundOp, Call.AnyTimes, Call.MinTimes, Call.MaxTimes,
        Call.Times, BoundOp.argNonNeg, BoundOp.argLeSentinel, hmin, hmax] at * <;>
      first
        | omega
        | (split <;> simp only [] <;> omega)

/-- C1 witness: both parts of the amended claim instantiated; the sequence
`[AnyTimes, Times 2]` keeps both bounds non-negative, and a single `Times 3`
from the default bounds yields ordered bounds. -/
theorem C1_bounds_after_ops_witness :
    (0 ≤ (applyBoundOps freshCall [.anyTimes, .times 2]).minCalls ∧
      0 ≤ (applyBoundOps freshCall [.anyTimes, .times 2]).maxCalls) ∧
    (0 ≤ (applyBoundOp freshCall (.times 3)).minCalls ∧
      (applyBoundOp freshCall (.times 3)).minCalls ≤
        (applyBoundOp freshCall (.times 3)).maxCalls) :=
  ⟨C1_bounds_after_ops.1 freshCall [.anyTimes, .times 2] (by decide) (by decide)
      (by intro op hop; fin_cases hop <;> simp [BoundOp.argNonNeg]),
    C1_bounds_after_ops.2 freshCall (.times 3) rfl rfl (by simp [BoundOp.argNonNeg])
      (by simp [BoundOp.argLeSentinel])⟩

/-- C3 counterexample: from the default bounds, `MaxTimes 1` then `MinTimes 5`
does not keep `maxCalls = 1`: `MinTimes` sees `maxCalls = 1` and raises it to
the `1e8` unbounded sentinel, so "for any m" fails at `m = 1`. -/
theorem C3_counterexample :
    ¬ (((freshCall.MaxTimes 1).MinTimes 5).maxCalls = 1) := by
  decide

/-- C3 (amended): on default bounds `[1, 1]`, `MinTimes n` yields
`[n, UNBOUNDED]` (with `UNBOUNDED = 1e8`); `MinTimes n` after `MaxTimes m`
yields `[n, m]` with `maxCalls` unchanged for every `m ≠ 1`, while for `m = 1`
the `maxCalls` is raised to `UNBOUNDED` instead. -/
theorem C3_minTimes_bounds (c : Call) (n m : Int)
    (hmin : c.minCalls = 1) (hmax : c.maxCalls = 1) :
    ((c.MinTimes n).minCalls = n ∧ (c.MinTimes n).maxCalls = 100000000) ∧
    (m ≠ 1 → ((c.MaxTimes m).MinTimes n).minCalls = n ∧
      ((c.MaxTimes m).MinTimes n).maxCalls = m) ∧
    (m = 1 → ((c.MaxTimes m).MinTimes n).maxCalls = 100000000) := by
  refine ⟨?_, ?_, ?_⟩ <;>
    simp only [Call.MinTimes, Call.MaxTimes, hmin, hmax] <;>
    intros <;> split <;> simp_all

/-- C3 witness: the amended claim at `n = 5`, `m = 3` on a default-bounds
expectation. -/
theorem C3_minTimes_bounds_witness :
    ((freshCall.MinTimes 5).minCalls = 5 ∧
      (freshCall.MinTimes 5).maxCalls = 100000000) ∧
    ((3 : Int) ≠ 1 → ((freshCall.MaxTimes 3).MinTimes 5).minCalls = 5 ∧
      ((freshCall.MaxTimes 3).MinTimes 5).maxCalls = 3) ∧
    ((3 : Int) = 1 → ((freshCall.MaxTimes 3).MinTimes 5).maxCalls = 100000000) :=
  C3_minTimes_bounds freshCall 5 3 rfl rfl

/-- C4: `Times n` pins the bounds to exactly `[n, n]` whatever the prior
bounds were, and after a sequence of `n` invocations of `call` starting from
`numCalls = 0` the counter equals `n` and `exhausted()` is true, which is the
signal the controller consumes to reject an `(n+1)`-th matching attempt. -/
theorem C4_times_then_exhausted (c : Call) (n : Int)
    (steps : List (List Value × Store))
    (hzero : c.numCalls = 0) (hlen : (steps.length : Int) = n) :
    (c.Times n).minCalls = n ∧ (c.Times n).maxCalls = n ∧
    (runCalls (c.Times n) steps).numCalls = n ∧
    (runCalls (c.Times n) steps).exhausted = true := by
  obtain ⟨h1, h2, h3⟩ := runCalls_state (c.Times n) steps
  refine ⟨rfl, rfl, ?_, ?_⟩
  · rw [h3]
    simp [Call.Times, hzero, hlen]
  · rw [Call.exhausted, h2, h3]
    simp only [Call.Times, hzero, hlen, decide_eq_true_eq]
    omega

/-- C4 witness: `Times 2` with two invocations; the bounds are `[2, 2]`, the
counter reaches 2 and the expectation is exhausted. -/
theorem C4_times_then_exhausted_witness :
    (freshCall.Times 2).minCalls = 2 ∧ (freshCall.Times 2).maxCalls = 2 ∧
    (runCalls (freshCall.Times 2) [([], []), ([], [])]).numCalls = 2 ∧
    (runCalls (freshCall.Times 2) [([], []), ([], [])]).exhausted = true :=
  C4_times_then_exhausted freshCall 2 [([], []), ([], [])] rfl rfl

/-- C7: the return values produced by `call` are exactly the stored `Return`
values when they were declared, and otherwise the zero value of each declared
return slot type, one per slot in declaration order. -/
theorem C7_call_return_values (c : Call) (args : List Value) (st : Store) :
    (c.rets = none →
      (Call.call c args st).2.1 = c.methodType.outs.map zeroValue ∧
      (Call.call c args st).2.1.length = c.methodType.outs.length) ∧
    (∀ rs, c.rets = some rs → (Call.call c args st).2.1 = rs) := by
  constructor
  · intro h
    simp [Call.call, h]
  · intro rs h
    simp [Call.call, h]

/-- C7 witness: an expectation with one declared int return slot and no
`Return` produces exactly the zero int value. -/
theorem C7_call_return_values_witness :
    ({ freshCall with methodType := ⟨[], [GoType.base .int "int"]⟩ } : Call).rets = none →
    (Call.call { freshCall with methodType := ⟨[], [GoType.base .int "int"]⟩ } [] []).2.1 =
      [GoType.base .int "int"].map zeroValue ∧
    (Call.call { freshCall with methodType := ⟨[], [GoType.base .int "int"]⟩ } [] []).2.1.length =
      [GoType.base .int "int"].length :=
  (C7_call_return_values { freshCall with methodType := ⟨[], [GoType.base .int "int"]⟩ } [] []).1

/-- C10: `call` increments `numCalls` by exactly one, its entire behaviour is
independent of `maxCalls` (so it never consults `exhausted()`), and on an
already-exhausted expectation the incremented counter strictly exceeds
`maxCalls`; the upper bound is enforced only by callers reading
`exhausted()`. -/
theorem C10_call_ignores_exhaustion (c : Call) (args : List Value) (st : Store) :
    ((Call.call c args st).1.numCalls = c.numCalls + 1) ∧
    (∀ m : Int, Call.call { c with maxCalls := m } args st =
      ({ (Call.call c args st).1 with maxCalls := m }, (Call.call c args st).2)) ∧
    (c.exhausted = true → (Call.call c args st).1.numCalls > c.maxCalls) := by
  refine ⟨rfl, fun m => rfl, fun h => ?_⟩
  rw [Call.exhausted, decide_eq_true_eq] at h
  rw [call_fst]
  simp only []
  omega

theorem matchesArgsLoop_fst (c : Call) (ms : List Matcher) (vs : List Value) (i : Nat) :
    (matchesArgsLoop c ms vs i).1 = c := by
  induction ms generalizing vs i with
  | nil => rfl
  | cons m t ih =>
    cases vs with
    | nil => rfl
    | cons v vt =>
      simp only [matchesArgsLoop]
      split
      · rfl
      · exact ih vt (i + 1)

theorem matchesPreReqLoop_fst (s : Sys) (c : Call) (ps : List Nat) :
    (matchesPreReqLoop s c ps).1 = c := by
  induction ps with
  | nil => rfl
  | cons p t ih =>
    simp only [matchesPreReqLoop]
    split
    · rfl
    · exact ih

theorem matchesArgsLoop_none_iff (c : Call) (ms : List Matcher) (vs : List Value) (i : Nat) :
    (matchesArgsLoop c ms vs i).2 = none ↔
      ∀ j m v, List.get? ms j = some m → List.get? vs j = some v →
        m.accepts v = true := by
  induction ms generalizing vs i with
  | nil =>
    simp only [matchesArgsLoop, List.get?_nil]
    simp
  | cons m t ih =>
    cases vs with
    | nil =>
      simp only [matchesArgsLoop, List.get?_nil]
      simp
    | cons v vt =>
      simp only [matchesArgsLoop]
      split
      · rename_i hna
        constructor
        · intro h; exact absurd h (by simp)
        · intro hall
          exact absurd (hall 0 m v rfl rfl) hna
      · rename_i hacc
        rw [not_not] at hacc
        rw [ih vt (i + 1)]
        constructor
        · intro h j m' v' hm hv
          cases j with
          | zero =>
            cases hm; cases hv; exact hacc
          | succ j =>
            exact h j m' v' (by simpa using hm) (by simpa using hv)
        · intro h j m' v' hm hv
          exact h (j + 1) m' v' (by simpa using hm) (by simpa using hv)

theorem matchesArgsLoop_first_fail (c : Call) (ms : List Matcher) :
    ∀ (vs : List Value) (k i : Nat) (m : Matcher) (v : Value),
      List.get? ms i = some m → List.get? vs i = some v → m.accepts v = false →
      (∀ j, j < i → ∀ m' v', List.get? ms j = some m' → List.get? vs j = some v' →
        m'.accepts v' = true) →
      (matchesArgsLoop c ms vs k).2 = some (.argMismatch (k + i)) := by
  induction ms with
  | nil => intro vs k i m v hm; simp at hm
  | cons mh t ih =>
    intro vs k i m v hm hv hfail hpre
    cases vs with
    | nil => simp at hv
    | cons v0 vt =>
      cases i with
      | zero =>
        simp only [List.get?_cons_zero, Option.some_inj] at hm hv
        subst hm; subst hv
        simp only [matchesArgsLoop, hfail]
        simp
      | succ i =>
        have h0 : mh.accepts v0 = true :=
          hpre 0 (Nat.succ_pos i) mh v0 rfl rfl
        simp only [List.get?_cons_succ] at hm hv
        simp only [matchesArgsLoop, h0]
        have := ih vt (k + 1) i m v hm hv hfail
          (fun j hj m' v' hm' hv' =>
            hpre (j + 1) (Nat.succ_lt_succ hj) m' v' (by simpa using hm') (by simpa using hv'))
        simp only [not_true_eq_false, if_false] at this ⊢
        rw [this]
        congr 2
        omega

theorem matchesPreReqLoop_none_iff (s : Sys) (c : Call) (ps : List Nat) :
    (matchesPreReqLoop s c ps).2 = none ↔
      ∀ p ∈ ps, (getCall s p).satisfied = true := by
  induction ps with
  | nil => simp [matchesPreReqLoop]
  | cons p t ih =>
    simp only [matchesPreReqLoop]
    split
    · rename_i hns
      constructor
      · intro h; exact absurd h (by simp)
      · intro hall; exact absurd (hall p (List.mem_cons_self p t)) hns
    · rename_i hs
      rw [not_not] at hs
      rw [ih]
      constructor
      · intro h q hq
        rcases List.mem_cons.mp hq with h' | h'
        · subst h'; exact hs
        · exact h q h'
      · intro h q hq; exact h q (List.mem_cons_of_mem _ hq)

theorem matchesPreReqLoop_first_fail (s : Sys) (c : Call) (l1 : List Nat) :
    ∀ (p : Nat) (l2 : List Nat),
      (∀ q ∈ l1, (getCall s q).satisfied = true) →
      (getCall s p).satisfied = false →
      (matchesPreReqLoop s c (l1 ++ p :: l2)).2 = some (.unsatisfiedPrereq p) := by
  induction l1 with
  | nil =>
    intro p l2 _ hfail
    simp only [List.nil_append, matchesPreReqLoop, hfail]
    simp
  | cons q t ih =>
    intro p l2 hpre hfail
    have hq : (getCall s q).satisfied = true := hpre q (List.mem_cons_self q t)
    simp only [List.cons_append, matchesPreReqLoop, hq]
    simp only [not_true_eq_false, if_false]
    exact ih p l2 (fun r hr => hpre r (List.mem_cons_of_mem _ hr)) hfail

/-- C2: `matches` succeeds exactly when the actual argument count equals the
declared matcher count, every stored matcher accepts the actual value at its
position, and every prerequisite is satisfied; it fails with the arity error on
any length mismatch regardless of content, with the positional error at the
first failing matcher index, and otherwise with the error naming the first
unsatisfied prerequisite — checked fail-fast in that order. -/
theorem C2_matches_characterization (s : Sys) (c : Call) (args : List Value) :
    ((Call.matches s c args).2 = none ↔
      (args.length = c.args.length ∧
        (∀ j m v, List.get? c.args j = some m → List.get? args j = some v →
          m.accepts v = true) ∧
        (∀ p ∈ c.preReqs, (getCall s p).satisfied = true))) ∧
    (args.length ≠ c.args.length →
      (Call.matches s c args).2 = some (.wrongArity args.length c.args.length)) ∧
    (args.length = c.args.length →
      ∀ i m v, List.get? c.args i = some m → List.get? args i = some v →
        m.accepts v = false →
        (∀ j, j < i → ∀ m' v', List.get? c.args j = some m' →
          List.get? args j = some v' → m'.accepts v' = true) →
        (Call.matches s c args).2 = some (.argMismatch i)) ∧
    (args.length = c.args.length →
      (∀ j m v, List.get? c.args j = some m → List.get? args j = some v →
        m.accepts v = true) →
      ∀ p l1 l2, c.preReqs = l1 ++ p :: l2 →
        (∀ q ∈ l1, (getCall s q).satisfied = true) →
        (getCall s p).satisfied = false →
        (Call.matches s c args).2 = some (.unsatisfiedPrereq p)) := by
  refine ⟨?_, ?_, ?_, ?_⟩
  · rw [Call.matches]
    split
    · rename_i hne
      simp only []
      constructor
      · intro h; exact absurd h (by simp)
      · intro ⟨h, _, _⟩; exact absurd h hne
    · rename_i heq
      rw [not_ne_iff] at heq
      cases hAL : matchesArgsLoop c c.args args 0 with
      | mk c₂ e =>
        have hc : c = c₂ := by
          have := matchesArgsLoop_fst c c.args args 0
          rw [hAL] at this; exact this.symm
        obtain rfl := hc
        cases e with
        | some err =>
          simp only []
          constructor
          · intro h; exact absurd h (by simp)
          · intro ⟨_, hm, _⟩
            have hn : (matchesArgsLoop c c.args args 0).2 = none :=
              (matchesArgsLoop_none_iff c c.args args 0).mpr hm
            rw [hAL] at hn; simp at hn
        | none =>
          simp only []
          rw [matchesPreReqLoop_none_iff]
          constructor
          · intro h
            refine ⟨heq, ?_, h⟩
            have hn : (matchesArgsLoop c c.args args 0).2 = none := by rw [hAL]
            exact (matchesArgsLoop_none_iff c c.args args 0).mp hn
          · intro ⟨_, _, h⟩; exact h
  · intro hne
    rw [Call.matches]
    split
    · rfl
    · rename_i h; exact absurd hne h
  · intro heq i m v hm hv hfail hpre
    rw [Call.matches]
    split
    · rename_i h; exact absurd heq h
    · have hfirst := matchesArgsLoop_first_fail c c.args args 0 i m v hm hv hfail
        (fun j hj => hpre j hj)
      cases hAL : matchesArgsLoop c c.args args 0 with
      | mk c₂ e =>
        rw [hAL] at hfirst
        simp only [Nat.zero_add] at hfirst
        rw [hfirst]
  · intro heq hm p l1 l2 hps hpre hfail
    rw [Call.matches]
    split
    · rename_i h; exact absurd heq h
    · have hnone : (matchesArgsLoop c c.args args 0).2 = none :=
        (matchesArgsLoop_none_iff c c.args args 0).mpr hm
      cases hAL : matchesArgsLoop c c.args args 0 with
      | mk c₂ e =>
        have hc : c = c₂ := by
          have := matchesArgsLoop_fst c c.args args 0
          rw [hAL] at this; exact this.symm
        obtain rfl := hc
        rw [hAL] at hnone
        simp only [] at hnone
        subst hnone
        simp only []
        rw [hps]
        exact matchesPreReqLoop_first_fail s c l1 p l2 hpre hfail

/-- C2 witness: an expectation with two matchers and one (satisfied, AnyTimes)
prerequisite matches an invocation whose arguments both matchers accept. -/
theorem C2_matches_characterization_witness :
    (Call.matches [freshCall.AnyTimes]
      { freshCall with
          args := [anyMatcher, eqMatcher (Value.typed (.base .int "int") (.int 7))]
          preReqs := [0] }
      [Value.nil, Value.typed (.base .int "int") (.int 7)]).2 = none :=
  ((C2_matches_characterization [freshCall.AnyTimes]
    { freshCall with
        args := [anyMatcher, eqMatcher (Value.typed (.base .int "int") (.int 7))]
        preReqs := [0] }
    [Value.nil, Value.typed (.base .int "int") (.int 7)]).1).mpr
    ⟨rfl,
      by
        intro j m v hm hv
        match j with
        | 0 =>
          simp only [List.get?_cons_zero, Option.some_inj] at hm hv
          subst hm; subst hv; rfl
        | 1 =>
          simp only [List.get?_cons_succ, List.get?_cons_zero, Option.some_inj] at hm hv
          subst hm; subst hv; decide
        | (j + 2) => simp at hm,
      by
        intro p hp
        simp only [List.mem_singleton] at hp
        subst hp; decide⟩

/-- C9: `matches` is a pure query: the threaded receiver comes back unchanged,
so every field — counters, bounds, prerequisites, return values, bindings — is
exactly as before, whether matching succeeds or fails. -/
theorem C9_matches_is_pure (s : Sys) (c : Call) (args : List Value) :
    (Call.matches s c args).1 = c ∧
    (Call.matches s c args).1.numCalls = c.numCalls ∧
    (Call.matches s c args).1.minCalls = c.minCalls ∧
    (Call.matches s c args).1.maxCalls = c.maxCalls ∧
    (Call.matches s c args).1.preReqs = c.preReqs ∧
    (Call.matches s c args).1.rets = c.rets ∧
    (Call.matches s c args).1.setArgs = c.setArgs := by
  have h : (Call.matches s c args).1 = c := by
    rw [Call.matches]
    split
    · rfl
    · cases hAL : matchesArgsLoop c c.args args 0 with
      | mk c₂ e =>
        have hc : c = c₂ := by
          have := matchesArgsLoop_fst c c.args args 0
          rw [hAL] at this; exact this.symm
        obtain rfl := hc
        cases e with
        | some err => rfl
        | none => exact matchesPreReqLoop_fst s c c.preReqs
  exact ⟨h, by rw [h], by rw [h], by rw [h], by rw [h], by rw [h], by rw [h]⟩


/-- C10 witness: on an already-exhausted expectation (bounds `[0, 0]`), `call`
still increments the counter past `maxCalls`. -/
theorem C10_call_ignores_exhaustion_witness :
    ((Call.call (freshCall.Times 0) [] []).1.numCalls = (freshCall.Times 0).numCalls + 1) ∧
    (∀ m : Int, Call.call { freshCall.Times 0 with maxCalls := m } [] [] =
      ({ (Call.call (freshCall.Times 0) [] []).1 with maxCalls := m },
        (Call.call (freshCall.Times 0) [] []).2)) ∧
    ((freshCall.Times 0).exhausted = true →
      (Call.call (freshCall.Times 0) [] []).1.numCalls > (freshCall.Times 0).maxCalls) :=
  C10_call_ignores_exhaustion (freshCall.Times 0) [] []

theorem returnLoop_ok_nil (ws : List GoType) :
    ∀ (rs : List Value) (i : Nat) (out : List Value),
      returnLoop ws rs i = .ok out →
      ∀ j w, List.get? rs j = some .nil → List.get? ws j = some w →
        nillableKind w.kind = true := by
  induction ws with
  | nil => intro rs i out _ j w _ hw; simp at hw
  | cons w0 wt ih =>
    intro rs i out hok j w hr hw
    cases rs with
    | nil => simp at hr
    | cons r rest =>
      cases j with
      | zero =>
        simp only [List.get?_cons_zero, Option.some_inj] at hr hw
        subst hr; subst hw
        simp only [returnLoop, Value.typeOf] at hok
        split at hok
        · assumption
        · simp at hok
      | succ j =>
        simp only [List.get?_cons_succ] at hr hw
        simp only [returnLoop] at hok
        cases hr' : r.typeOf with
        | some got =>
          rw [hr'] at hok
          simp only [] at hok
          split at hok
          · cases hrec : returnLoop wt rest (i + 1) with
            | error e => rw [hrec] at hok; simp [Except.map] at hok
            | ok out' => exact ih rest (i + 1) out' hrec j w hr hw
          · split at hok
            · cases hrec : returnLoop wt rest (i + 1) with
              | error e => rw [hrec] at hok; simp [Except.map] at hok
              | ok out' => exact ih rest (i + 1) out' hrec j w hr hw
            · simp at hok
        | none =>
          rw [hr'] at hok
          simp only [] at hok
          split at hok
          · cases hrec : returnLoop wt rest (i + 1) with
            | error e => rw [hrec] at hok; simp [Except.map] at hok
            | ok out' => exact ih rest (i + 1) out' hrec j w hr hw
          · simp at hok

/-- C6: with the declared return arity respected, `Return` succeeds only when
every position holding the universal nil marker has a declared slot of a
nillable kind (channel, function, interface, map, pointer or slice); a nil
marker in a non-nillable slot forces the fatal path. -/
theorem C6_return_nil_nillable (c : Call) (rs : List Value)
    (hlen : rs.length = c.methodType.outs.length) :
    ((∃ j w, List.get? rs j = some .nil ∧ List.get? c.methodType.outs j = some w ∧
        nillableKind w.kind = false) → ∃ e, Call.Return c rs = .error e) ∧
    (∀ c', Call.Return c rs = .ok c' → ∀ j w, List.get? rs j = some .nil →
        List.get? c.methodType.outs j = some w → nillableKind w.kind = true) := by
  have hok : ∀ c', Call.Return c rs = .ok c' → ∀ j w, List.get? rs j = some .nil →
      List.get? c.methodType.outs j = some w → nillableKind w.kind = true := by
    intro c' h j w hr hw
    rw [Call.Return] at h
    split at h
    · simp at h
    · split at h
      · simp at h
      · rename_i rs' hloop
        exact returnLoop_ok_nil c.methodType.outs rs 0 rs' hloop j w hr hw
  refine ⟨?_, hok⟩
  intro ⟨j, w, hr, hw, hbad⟩
  cases hres : Call.Return c rs with
  | error e => exact ⟨e, rfl⟩
  | ok c' =>
    have := hok c' hres j w hr hw
    rw [this] at hbad
    simp at hbad

/-- C6 witness: a single channel-typed (nillable) return slot accepts the nil
marker; the theorem instantiated at that expectation. -/
theorem C6_return_nil_nillable_witness :
    ((∃ j w, List.get? [Value.nil] j = some .nil ∧
        List.get? ({ freshCall with methodType := ⟨[], [GoType.base .chan "chan int"]⟩ } : Call).methodType.outs j = some w ∧
        nillableKind w.kind = false) →
      ∃ e, Call.Return { freshCall with methodType := ⟨[], [GoType.base .chan "chan int"]⟩ } [Value.nil] = .error e) ∧
    (∀ c', Call.Return { freshCall with methodType := ⟨[], [GoType.base .chan "chan int"]⟩ } [Value.nil] = .ok c' →
      ∀ j w, List.get? [Value.nil] j = some .nil →
        List.get? ({ freshCall with methodType := ⟨[], [GoType.base .chan "chan int"]⟩ } : Call).methodType.outs j = some w →
        nillableKind w.kind = true) :=
  C6_return_nil_nillable { freshCall with methodType := ⟨[], [GoType.base .chan "chan int"]⟩ }
    [Value.nil] rfl

theorem writeThrough_length (st : Store) (arg v : Value) :
    (writeThrough st arg v).length = List.length st := by
  cases arg with
  | nil => rfl
  | typed t p =>
    cases p with
    | addr a => exact List.length_set st a v
    | int i => rfl
    | bool b => rfl
    | str s => rfl
    | nilp => rfl
    | raw r => rfl

theorem foldl_write_untouched (args : List Value) (a : Nat) :
    ∀ (l : List (Nat × Value)) (st : Store),
      (∀ m w, (m, w) ∈ l → argAddr args m ≠ some a) →
      List.get? (l.foldl (fun st p =>
        writeThrough st ((List.get? args p.1).getD .nil) p.2) st) a = List.get? st a := by
  intro l
  induction l with
  | nil => intro st _; rfl
  | cons p t ih =>
    intro st hno
    obtain ⟨m, w⟩ := p
    have hstep : List.get? (writeThrough st ((List.get? args m).getD .nil) w) a =
        List.get? st a := by
      cases hv : (List.get? args m).getD .nil with
      | nil => rfl
      | typed t' pl =>
        cases pl with
        | addr b =>
          have hb : argAddr args m = some b := by rw [argAddr, hv]
          have hne : b ≠ a := fun hba =>
            hno m w (List.mem_cons_self _ _) (hba ▸ hb)
          exact List.get?_set_ne _ st hne
        | int i => rfl
        | bool b => rfl
        | str s => rfl
        | nilp => rfl
        | raw r => rfl
    simp only [List.foldl_cons]
    rw [ih _ (fun m' w' hm' => hno m' w' (List.mem_cons_of_mem _ hm')), hstep]

theorem foldl_write_hits (args : List Value) (a : Nat) (n : Nat) (v : Value) :
    ∀ (l : List (Nat × Value)) (st : Store),
      (n, v) ∈ l →
      (List.map Prod.fst l).Nodup →
      argAddr args n = some a →
      a < List.length st →
      (∀ m w, (m, w) ∈ l → m ≠ n → argAddr args m ≠ some a) →
      List.get? (l.foldl (fun st p =>
        writeThrough st ((List.get? args p.1).getD .nil) p.2) st) a = some v := by
  intro l
  induction l with
  | nil => intro st h; simp at h
  | cons p t ih =>
    intro st hmem hnodup haddr hlt hno
    obtain ⟨m, w⟩ := p
    simp only [List.map_cons, List.nodup_cons] at hnodup
    by_cases hmn : m = n
    · have hw : w = v := by
        rcases List.mem_cons.mp hmem with h | h
        · exact (Prod.ext_iff.mp h).2.symm
        · exact absurd (List.mem_map.mpr ⟨(n, v), h, by simp [hmn]⟩) hnodup.1
      simp only [List.foldl_cons]
      rw [foldl_write_untouched args a t _
        (fun m' w' hm' => by
          by_cases h' : m' = n
          · exact absurd (List.mem_map.mpr ⟨(m', w'), hm', by rw [h', ← hmn]⟩)
              hnodup.1
          · exact hno m' w' (List.mem_cons_of_mem _ hm') h')]
      rw [hw, hmn]
      cases hv : (List.get? args n).getD .nil with
      | nil => rw [argAddr, hv] at haddr; simp at haddr
      | typed t' pl =>
        cases pl with
        | addr b =>
          have hb : b = a := by
            rw [argAddr, hv] at haddr
            simpa using haddr
          subst hb
          rw [writeThrough, List.get?_eq_getElem?]
          exact List.getElem?_set_eq_of_lt v hlt
        | int i => rw [argAddr, hv] at haddr; simp at haddr
        | bool b => rw [argAddr, hv] at haddr; simp at haddr
        | str s => rw [argAddr, hv] at haddr; simp at haddr
        | nilp => rw [argAddr, hv] at haddr; simp at haddr
        | raw r => rw [argAddr, hv] at haddr; simp at haddr
    · have hmem' : (n, v) ∈ t := by
        rcases List.mem_cons.mp hmem with h | h
        · exact absurd (Prod.ext_iff.mp h).1.symm hmn
        · exact h
      simp only [List.foldl_cons]
      refine ih _ hmem' hnodup.2 haddr ?_
        (fun m' w' hm' hne => hno m' w' (List.mem_cons_of_mem _ hm') hne)
      rw [writeThrough_length]
      exact hlt


/-- C8: every stored output binding `(n, v)` is written through the pointer
held by the n-th actual argument during `call` itself (the returned heap has
`v` at the pointed-to address), and the written heap is identical whatever
action function is or is not set. -/
theorem C8_setArg_writes (c : Call) (args : List Value) (st : Store)
    (n : Nat) (v : Value) (a : Nat)
    (hmem : (n, v) ∈ c.setArgs)
    (hkeys : (List.map Prod.fst c.setArgs).Nodup)
    (haddr : argAddr args n = some a)
    (hlt : a < List.length st)
    (hnoalias : ∀ m w, (m, w) ∈ c.setArgs → m ≠ n → argAddr args m ≠ some a) :
    (List.get? (Call.call c args st).2.2.2 a = some v) ∧
    (∀ d, (Call.call { c with doFunc := d } args st).2.2.2 =
      (Call.call c args st).2.2.2) :=
  ⟨foldl_write_hits args a n v c.setArgs st hmem hkeys haddr hlt hnoalias,
    fun _ => rfl⟩

/-- C8 witness: one binding writing the int 9 through a pointer argument at
heap address 0, with no action set; the heap cell holds 9 after `call`, and
setting an action leaves the written heap identical. -/
theorem C8_setArg_writes_witness :
    (List.get? (Call.call
        { freshCall with setArgs := [(0, Value.typed (.base .int "int") (.int 9))] }
        [Value.typed (.ptr (.base .int "int")) (.addr 0)]
        [Value.typed (.base .int "int") (.int 1)]).2.2.2 0 =
      some (Value.typed (.base .int "int") (.int 9))) ∧
    (∀ d, (Call.call
        { { freshCall with setArgs := [(0, Value.typed (.base .int "int") (.int 9))] }
            with doFunc := d }
        [Value.typed (.ptr (.base .int "int")) (.addr 0)]
        [Value.typed (.base .int "int") (.int 1)]).2.2.2 =
      (Call.call
        { freshCall with setArgs := [(0, Value.typed (.base .int "int") (.int 9))] }
        [Value.typed (.ptr (.base .int "int")) (.addr 0)]
        [Value.typed (.base .int "int") (.int 1)]).2.2.2) :=
  C8_setArg_writes
    { freshCall with setArgs := [(0, Value.typed (.base .int "int") (.int 9))] }
    [Value.typed (.ptr (.base .int "int")) (.addr 0)]
    [Value.typed (.base .int "int") (.int 1)]
    0 (Value.typed (.base .int "int") (.int 9)) 0
    (List.mem_cons_self _ _) (by simp) rfl (by decide)
    (by intro m w hm hne; simp at hm; exact absurd hm.1 hne)

theorem edgeTo_lt {s : Sys} {x y : Nat} (h : EdgeTo s x y) : x < List.length s := by
  by_contra hx
  push_neg at hx
  rw [EdgeTo, getCall, List.get?_eq_none.mpr hx] at h
  simp at h

theorem isPreReqFuel_sound (s : Sys) :
    ∀ (f a b : Nat), isPreReqFuel s f a b = true → Reaches s a b := by
  intro f
  induction f with
  | zero => intro a b h; simp [isPreReqFuel] at h
  | succ f ih =>
    intro a b h
    rw [isPreReqFuel, List.any_eq_true] at h
    obtain ⟨p, hp, hor⟩ := h
    rw [Bool.or_eq_true] at hor
    rcases hor with h1 | h2
    · have hb : b = p := of_decide_eq_true h1
      subst hb
      exact Relation.TransGen.single hp
    · exact Relation.TransGen.head hp (ih p b h2)

theorem chainFuel (s : Sys) :
    ∀ (l : List Nat) (a b f : Nat),
      List.Chain (EdgeTo s) a (l ++ [b]) → l.length < f →
      isPreReqFuel s f a b = true := by
  intro l
  induction l with
  | nil =>
    intro a b f h hf
    cases f with
    | zero => omega
    | succ f =>
      rw [List.nil_append, List.chain_cons] at h
      rw [isPreReqFuel, List.any_eq_true]
      exact ⟨b, h.1, by simp⟩
  | cons c t ih =>
    intro a b f h hf
    rw [List.cons_append, List.chain_cons] at h
    cases f with
    | zero => omega
    | succ f =>
      rw [isPreReqFuel, List.any_eq_true]
      refine ⟨c, h.1, ?_⟩
      rw [Bool.or_eq_true]
      right
      refine ih c b f h.2 ?_
      simp only [List.length_cons] at hf
      omega

theorem exists_dup_split {l : List Nat} (h : ¬ l.Nodup) :
    ∃ x d1 d2 d3, l = d1 ++ x :: d2 ++ x :: d3 := by
  induction l with
  | nil => simp at h
  | cons a t ih =>
    rw [List.nodup_cons] at h
    push_neg at h
    by_cases ha : a ∈ t
    · obtain ⟨s1, s2, rfl⟩ := List.append_of_mem ha
      exact ⟨a, [], s1, s2, by simp⟩
    · obtain ⟨x, d1, d2, d3, rfl⟩ := ih (h ha)
      exact ⟨x, a :: d1, d2, d3, by simp⟩

theorem chain_dropLast_edge {s : Sys} :
    ∀ (l : List Nat) (a : Nat), List.Chain (EdgeTo s) a l →
      ∀ x ∈ (a :: l).dropLast, ∃ y, EdgeTo s x y := by
  intro l
  induction l with
  | nil => intro a _ x hx; simp at hx
  | cons c t ih =>
    intro a hch x hx
    rw [List.chain_cons] at hch
    have hd : (a :: c :: t).dropLast = a :: (c :: t).dropLast := by simp
    rw [hd] at hx
    rcases List.mem_cons.mp hx with h | h
    · exact ⟨c, h ▸ hch.1⟩
    · exact ih c hch.2 x h

theorem chain_last_rtg (s : Sys) :
    ∀ (l : List Nat) (a b : Nat), List.Chain (EdgeTo s) a (l ++ [b]) →
      Relation.ReflTransGen (EdgeTo s) a b := by
  intro l
  induction l with
  | nil =>
    intro a b h
    rw [List.nil_append, List.chain_cons] at h
    exact Relation.ReflTransGen.single h.1
  | cons c t ih =>
    intro a b h
    rw [List.cons_append, List.chain_cons] at h
    exact Relation.ReflTransGen.head h.1 (ih c b h.2)

theorem chain_dup_cycle (s : Sys) (a : Nat) (l : List Nat)
    (hch : List.Chain (EdgeTo s) a l)
    (hdup : ¬ ((a :: l).dropLast).Nodup) : ∃ x, Reaches s x x := by
  obtain ⟨x, d1, d2, d3, hsplit⟩ := exists_dup_split hdup
  have hfull := List.dropLast_append_getLast (l := a :: l) (List.cons_ne_nil _ _)
  set g := (a :: l).getLast (List.cons_ne_nil _ _) with hg
  have hc0 : d1 ++ (x :: (d2 ++ [x])) ++ (d3 ++ [g]) = a :: l := by
    rw [← hfull, hsplit]
    simp
  have hchain' : List.Chain' (EdgeTo s) (a :: l) := hch
  have hseg : List.Chain' (EdgeTo s) (x :: (d2 ++ [x])) :=
    List.Chain'.infix hchain' ⟨d1, d3 ++ [g], hc0⟩
  have hseg' : List.Chain (EdgeTo s) x (d2 ++ [x]) := hseg
  cases d2 with
  | nil =>
    rw [List.nil_append, List.chain_cons] at hseg'
    exact ⟨x, Relation.TransGen.single hseg'.1⟩
  | cons y t =>
    rw [List.cons_append, List.chain_cons] at hseg'
    exact ⟨x, Relation.TransGen.head' hseg'.1 (chain_last_rtg s t y x hseg'.2)⟩

theorem nodup_bounded_length {d : List Nat} {N : Nat} (hnd : d.Nodup)
    (hlt : ∀ x ∈ d, x < N) : d.length ≤ N := by
  have h1 : d.toFinset ⊆ Finset.range N := fun x hx =>
    Finset.mem_range.mpr (hlt x (List.mem_toFinset.mp hx))
  have h2 := Finset.card_le_card h1
  rwa [List.toFinset_card_of_nodup hnd, Finset.card_range] at h2

theorem reaches_isPreReq {s : Sys} (hacyc : Acyclic s) {a b : Nat}
    (h : Reaches s a b) : isPreReq s a b = true := by
  have hne : a ≠ b := by
    intro hab
    subst hab
    exact hacyc a h
  obtain ⟨l, hch, hlast⟩ :=
    List.exists_chain_of_relationReflTransGen h.to_reflTransGen
  have hlne : l ≠ [] := by
    intro hl
    subst hl
    exact hne (by simpa using hlast)
  have hfull : (a :: l).dropLast ++ [b] = a :: l := by
    rw [← hlast]
    exact List.dropLast_append_getLast _
  have hnd : ((a :: l).dropLast).Nodup := by
    by_contra hcon
    obtain ⟨x, hx⟩ := chain_dup_cycle s a l hch hcon
    exact hacyc x hx
  have hbound : ∀ x ∈ (a :: l).dropLast, x < List.length s := fun x hx =>
    match chain_dropLast_edge l a hch x hx with
    | ⟨_, hy⟩ => edgeTo_lt hy
  have hlen : ((a :: l).dropLast).length ≤ List.length s :=
    nodup_bounded_length hnd hbound
  cases hD : (a :: l).dropLast with
  | nil =>
    rw [hD, List.nil_append] at hfull
    injection hfull with hb hl
    exact absurd hl.symm hlne
  | cons a' D' =>
    rw [hD, List.cons_append] at hfull
    injection hfull with h1 h2
    have hch' : List.Chain (EdgeTo s) a (D' ++ [b]) := by
      rw [h2]
      exact hch
    rw [hD, List.length_cons] at hlen
    rw [isPreReq]
    exact chainFuel s D' a b (List.length s) hch' (by omega)

theorem getCall_set (s : Sys) (c : Nat) (v : Call) (x : Nat) :
    getCall (List.set s c v) x =
      if x = c ∧ c < List.length s then v else getCall s x := by
  by_cases hx : x = c
  · subst hx
    by_cases hc : x < List.length s
    · rw [if_pos ⟨rfl, hc⟩, getCall, List.get?_eq_getElem?,
        List.getElem?_set_eq_of_lt v hc]
      rfl
    · rw [if_neg (fun hh => hc hh.2), List.set_eq_of_length_le (by omega)]
  · rw [if_neg (fun hh => hx hh.1), getCall, getCall, List.get?_eq_getElem?,
      List.get?_eq_getElem?, List.getElem?_set_ne (fun hh => hx hh.symm)]

theorem edgeTo_set_iff (s : Sys) (c p : Nat) (x y : Nat) :
    EdgeTo (List.set s c
      { getCall s c with preReqs := (getCall s c).preReqs ++ [p] }) x y ↔
      EdgeTo s x y ∨ (x = c ∧ y = p ∧ c < List.length s) := by
  rw [EdgeTo, getCall_set]
  by_cases hx : x = c ∧ c < List.length s
  · rw [if_pos hx]
    obtain ⟨hxc, hlt⟩ := hx
    subst hxc
    show y ∈ (getCall s x).preReqs ++ [p] ↔ _
    rw [List.mem_append, List.mem_singleton]
    constructor
    · rintro (h | h)
      · exact Or.inl h
      · exact Or.inr ⟨rfl, h, hlt⟩
    · rintro (h | ⟨_, h2, _⟩)
      · exact Or.inl h
      · exact Or.inr h2
  · rw [if_neg hx]
    constructor
    · exact fun h => Or.inl h
    · rintro (h | ⟨h1, _, h3⟩)
      · exact h
      · exact absurd ⟨h1, h3⟩ hx

theorem transGen_set_decompose (s : Sys) (c p : Nat) {u v : Nat}
    (h : Reaches (List.set s c
      { getCall s c with preReqs := (getCall s c).preReqs ++ [p] }) u v) :
    Reaches s u v ∨
      (Relation.ReflTransGen (EdgeTo s) u c ∧
        Relation.ReflTransGen (EdgeTo s) p v) := by
  induction h with
  | single he =>
    rcases (edgeTo_set_iff s c p _ _).mp he with h' | ⟨h1, h2, _⟩
    · exact Or.inl (Relation.TransGen.single h')
    · subst h1
      subst h2
      exact Or.inr ⟨Relation.ReflTransGen.refl, Relation.ReflTransGen.refl⟩
  | tail h' he ih =>
    rcases (edgeTo_set_iff s c p _ _).mp he with hE | ⟨h1, h2, _⟩
    · rcases ih with hL | ⟨huc, hpv⟩
      · exact Or.inl (Relation.TransGen.tail hL hE)
      · exact Or.inr ⟨huc, Relation.ReflTransGen.tail hpv hE⟩
    · subst h1
      subst h2
      rcases ih with hL | ⟨huc, _⟩
      · exact Or.inr ⟨hL.to_reflTransGen, Relation.ReflTransGen.refl⟩
      · exact Or.inr ⟨huc, Relation.ReflTransGen.refl⟩

theorem after_ok_acyclic {s : Sys} {c p : Nat} (hacyc : Acyclic s)
    (hcp : c ≠ p) (hnr : ¬ Reaches s p c) :
    Acyclic (List.set s c
      { getCall s c with preReqs := (getCall s c).preReqs ++ [p] }) := by
  intro a ha
  rcases transGen_set_decompose s c p ha with h | ⟨hac, hpa⟩
  · exact hacyc a h
  · have hpc : Relation.ReflTransGen (EdgeTo s) p c := hpa.trans hac
    rcases Relation.reflTransGen_iff_eq_or_transGen.mp hpc with h | h
    · exact hcp h
    · exact hnr h

theorem acyclic_of_no_edges {s : Sys} (h : ∀ x, (getCall s x).preReqs = []) :
    Acyclic s := by
  have hne : ∀ x y, ¬ EdgeTo s x y := by
    intro x y he
    rw [EdgeTo, h x] at he
    simp at he
  intro a ha
  cases ha with
  | single he => exact hne _ _ he
  | tail h' he => exact hne _ _ he

/-- C5: on an acyclic prerequisite graph, `After` with `preReq` equal to the
call itself, or with a `preReq` that already directly or transitively depends
on the call, takes the fatal path and leaves the registry untouched (no edge
added); and after every `After` — fatal or not — the prerequisite relation is
still acyclic. -/
theorem C5_after_rejects_cycles (s : Sys) (c p : Nat) (hacyc : Acyclic s) :
    ((c = p ∨ Reaches s p c) →
      (After s c p).1 = s ∧ (After s c p).2.isSome = true) ∧
    Acyclic (After s c p).1 := by
  by_cases hcp : c = p
  · constructor
    · intro _
      rw [After, if_pos hcp]
      exact ⟨rfl, rfl⟩
    · rw [After, if_pos hcp]
      exact hacyc
  · by_cases hpr : isPreReq s p c = true
    · constructor
      · intro _
        rw [After, if_neg hcp, if_pos hpr]
        exact ⟨rfl, rfl⟩
      · rw [After, if_neg hcp, if_pos hpr]
        exact hacyc
    · have hnr : ¬ Reaches s p c := fun h => hpr (reaches_isPreReq hacyc h)
      constructor
      · intro h
        rcases h with h | h
        · exact absurd h hcp
        · exact absurd h hnr
      · rw [After, if_neg hcp, if_neg hpr]
        exact after_ok_acyclic hacyc hcp hnr

/-- C5 witness: on the edgeless (hence acyclic) one-call registry, declaring
the call as its own prerequisite is fatal with the registry untouched, and the
relation stays acyclic. -/
theorem C5_after_rejects_cycles_witness :
    ((0 = 0 ∨ Reaches [freshCall] 0 0) →
      (After [freshCall] 0 0).1 = [freshCall] ∧
      (After [freshCall] 0 0).2.isSome = true) ∧
    Acyclic (After [freshCall] 0 0).1 :=
  C5_after_rejects_cycles [freshCall] 0 0
    (acyclic_of_no_edges (fun x => by
      cases x with
      | zero => rfl
      | succ n => rfl))

end Gomock
